import Mathlib

/-!
Verification development for the md-kit core: reference extraction
(`extractLinks` in src/core/scanner.ts), resolution (`findBrokenLinks`,
`findSuggestion`, `resolveWikilink`, `levenshtein` in src/core/resolver.ts)
and the rename propagator (`moveFile` in src/core/mover.ts).

JavaScript strings are modelled as `List Char`; the regular expressions used
by the scanner and the mover are embedded as deterministic matchers whose
backtracking order follows the JS engine (the determinism of each lazy and
greedy quantifier for these particular patterns is argued locally at each
definition).  The filesystem is modelled as an association list of documents
plus a list of other existing paths.
-/

set_option maxRecDepth 10000

namespace MdKit

abbrev Str := List Char

/-- Whitespace predicate backing the model of `String.prototype.trim`. -/
def isWs (c : Char) : Bool :=
  c = ' ' || c = '\t' || c = '\n' || c = '\r'

/-- Model of JavaScript `s.trim()`: strip whitespace from both ends. -/
def trimStr (s : Str) : Str :=
  ((s.dropWhile isWs).reverse.dropWhile isWs).reverse

/-- Charwise model of `String.prototype.toLowerCase` (exact for ASCII, the
alphabet exercised by this repository). -/
def lowerStr (s : Str) : Str := s.map Char.toLower

/-- Model of `content.split('\n')` (JS `String.prototype.split` with a
one-character separator; an empty string yields a single empty chunk). -/
def splitLines : Str → List Str
  | [] => [[]]
  | c :: rest =>
    if c = '\n' then [] :: splitLines rest
    else
      match splitLines rest with
      | [] => [[c]]
      | l :: ls => (c :: l) :: ls

/-- Model of `s.split('/')`, used for basename computations. -/
def splitSlash : Str → List Str
  | [] => [[]]
  | c :: rest =>
    if c = '/' then [] :: splitSlash rest
    else
      match splitSlash rest with
      | [] => [[c]]
      | l :: ls => (c :: l) :: ls

/-- Join path components back with `'/'` separators. -/
def joinSlash : List Str → Str
  | [] => []
  | [p] => p
  | p :: ps => p ++ '/' :: joinSlash ps

/-- Model of `baseName.split('/').pop() ?? baseName` from resolver.ts: the
last slash-separated component. -/
def lastPart (s : Str) : Str := (splitSlash s).getLastD s

/-- Model of `s.replace(/\.md$/, '')`: strip one trailing `.md` extension. -/
def stripMd (s : Str) : Str :=
  match s.reverse with
  | 'd' :: 'm' :: '.' :: r => r.reverse
  | _ => s

/-! ## Reference extraction (src/core/scanner.ts)

The scanner applies two global regexes per line:
wiki: `(?<!!)\[\[([^\]|#]+?)(?:#[^\]|]*)?(?:\|[^\]]*?)?\]\]`
rel:  `\[([^\]]*)\]\(([^)]+)\)`
(the mover's wiki regex additionally captures the alias group; matching is
identical, so one matcher serves both). -/

/-- Character class `[^\]|#]` of the wiki regex's name group. -/
def isG1 (c : Char) : Bool := !(c = ']' || c = '|' || c = '#')

/-- Character class `[^\]|]` of the wiki regex's heading group. -/
def isHeadChar (c : Char) : Bool := !(c = ']' || c = '|')

/-- Character class `[^\]]` of the wiki regex's alias group. -/
def isAliasChar (c : Char) : Bool := !(c = ']')

/-- Match `(?:\|[^\]]*?)?\]\]` at the head of `s`; returns the consumed
characters and the alias capture.  The lazy alias run can only stop at the
first `]`, and the greedy outer `?` tries the alias branch first, so the
matcher is deterministic. -/
def matchAlias (s : Str) : Option (Str × Option Str) :=
  match s with
  | '|' :: rest =>
    let al := rest.takeWhile isAliasChar
    (match rest.drop al.length with
     | ']' :: ']' :: _ => some ('|' :: al ++ [']', ']'], some al)
     | _ => none)
  | ']' :: ']' :: _ => some ([']', ']'], none)
  | _ => none

/-- Match `(?:#[^\]|]*)?(?:\|[^\]]*?)?\]\]` at the head of `s`.  The greedy
heading run can only stop at a `]` or `|`, and shortening it cannot help
(the continuation needs `|` or `]` immediately), so the matcher is
deterministic. -/
def matchHeadingTail (s : Str) : Option (Str × Option Str) :=
  match s with
  | '#' :: rest =>
    let hd := rest.takeWhile isHeadChar
    (match matchAlias (rest.drop hd.length) with
     | some (c, al) => some ('#' :: hd ++ c, al)
     | none => matchAlias s)
  | _ => matchAlias s

/-- Match the whole wiki pattern (without the lookbehind) at the head of `s`;
returns `(raw, name group, alias group)`.  The lazy name group can only stop
at a `]`, `|` or `#`, so it is forced to the maximal `isG1` run. -/
def matchWikiAt (s : Str) : Option (Str × Str × Option Str) :=
  match s with
  | '[' :: '[' :: rest =>
    let g1 := rest.takeWhile isG1
    if g1.isEmpty then none
    else
      (match matchHeadingTail (rest.drop g1.length) with
       | some (c, al) => some ('[' :: '[' :: g1 ++ c, g1, al)
       | none => none)
  | _ => none

/-- One match of the (mover's) wiki regex: start index, full match, name
capture and alias capture. -/
structure WikiMatch where
  start : Nat
  raw : Str
  target1 : Str
  alias2 : Option Str
  deriving DecidableEq, Repr

/-- All matches of the global wiki regex on a line: scan left to right,
skipping a candidate start whose preceding character is `!` (the `(?<!!)`
lookbehind), and resume after each match (`lastIndex`).  `fuel` bounds the
number of scan steps; `line.length + 1` always suffices since every step
consumes at least one character. -/
def scanWikiAux : Nat → Option Char → Nat → Str → List WikiMatch
  | _, _, _, [] => []
  | 0, _, _, _ => []
  | fuel + 1, prev, i, c :: rest =>
    if prev = some '!' then scanWikiAux fuel (some c) (i + 1) rest
    else
      match matchWikiAt (c :: rest) with
      | some (raw, g1, al) =>
        ⟨i, raw, g1, al⟩ ::
          scanWikiAux fuel raw.getLast? (i + raw.length) ((c :: rest).drop raw.length)
      | none => scanWikiAux fuel (some c) (i + 1) rest

/-- All wiki-regex matches of a line. -/
def scanWiki (line : Str) : List WikiMatch :=
  scanWikiAux (line.length + 1) none 0 line

/-- One match of the rel regex `\[([^\]]*)\]\(([^)]+)\)`. -/
structure RelMatch where
  start : Nat
  raw : Str
  label : Str
  href : Str
  deriving DecidableEq, Repr

/-- Match the rel pattern at the head of `s`.  Both greedy runs can only
stop at their closing delimiter, so the matcher is deterministic. -/
def matchRelAt (s : Str) : Option (Str × Str × Str) :=
  match s with
  | '[' :: rest =>
    let lbl := rest.takeWhile isAliasChar
    (match rest.drop lbl.length with
     | ']' :: '(' :: rest2 =>
       let href := rest2.takeWhile (fun c => !(c = ')'))
       if href.isEmpty then none
       else
         (match rest2.drop href.length with
          | ')' :: _ => some ('[' :: lbl ++ ']' :: '(' :: href ++ [')'], lbl, href)
          | _ => none)
     | _ => none)
  | _ => none

/-- All matches of the global rel regex on a line (no lookbehind). -/
def scanRelAux : Nat → Nat → Str → List RelMatch
  | _, _, [] => []
  | 0, _, _ => []
  | fuel + 1, i, c :: rest =>
    match matchRelAt (c :: rest) with
    | some (raw, lbl, href) =>
      ⟨i, raw, lbl, href⟩ :: scanRelAux fuel (i + raw.length) ((c :: rest).drop raw.length)
    | none => scanRelAux fuel (i + 1) rest

/-- All rel-regex matches of a line. -/
def scanRel (line : Str) : List RelMatch :=
  scanRelAux (line.length + 1) 0 line

inductive LinkType where
  | wikilink
  | relative
  deriving DecidableEq, Repr

/-- The `ExtractedLink` record of scanner.ts. -/
structure ExtractedLink where
  file : Str
  line : Nat
  raw : Str
  target : Str
  type : LinkType
  deriving DecidableEq, Repr

/-- Does the trimmed href fall under
`/^(https?:|mailto:|#|data:)/` (external URL, pure anchor, or data URI)? -/
def isExternalHref (href : Str) : Bool :=
  "http:".toList.isPrefixOf href || "https:".toList.isPrefixOf href ||
  "mailto:".toList.isPrefixOf href || "#".toList.isPrefixOf href ||
  "data:".toList.isPrefixOf href

/-- Convert a wiki match into an `ExtractedLink` (scanner.ts pushes the raw
match and the trimmed first capture). -/
def wikiToLink (file : Str) (ln : Nat) (m : WikiMatch) : ExtractedLink :=
  ⟨file, ln, m.raw, trimStr m.target1, .wikilink⟩

/-- Convert a rel match into an `ExtractedLink`, applying the scanner's
skips: external hrefs are dropped, the fragment is stripped, and an empty
remaining target is dropped. -/
def relToLink (file : Str) (ln : Nat) (m : RelMatch) : Option ExtractedLink :=
  let href := trimStr m.href
  if isExternalHref href then none
  else
    let target := href.takeWhile (fun c => !(c = '#'))
    if target.isEmpty then none
    else some ⟨file, ln, m.raw, target, .relative⟩

/-- Extraction of a single line: all wiki links, then all rel links (the
two regex passes of scanner.ts, in source order). -/
def extractLine (file : Str) (ln : Nat) (line : Str) : List ExtractedLink :=
  (scanWiki line).map (wikiToLink file ln) ++ (scanRel line).filterMap (relToLink file ln)

/-- Model of `extractLinks(filePath, content)` from src/core/scanner.ts. -/
def extractLinks (filePath : Str) (content : Str) : List ExtractedLink :=
  ((splitLines content).enum.map fun p => extractLine filePath (p.1 + 1) p.2).flatten

/-! ## Resolution (src/core/resolver.ts) -/

/-- One step of the Levenshtein DP: from row `i-1` (`prev`, aligned with
positions `0..n` of `b`) and the already-computed entry `cur = dp[i][j-1]`,
produce the entries `dp[i][1..n]` for the row of character `c = a[i-1]`. -/
def levRowStep (c : Char) : Str → List Nat → Nat → List Nat
  | b :: bs, pDiag :: pTail, cur =>
    let pUp := pTail.headD 0
    let v := if c = b then pDiag else 1 + Nat.min (Nat.min pUp cur) pDiag
    v :: levRowStep c bs pTail v
  | _, _, _ => []

/-- Fold the DP rows of `levenshtein` over the characters of `a`. -/
def levRows (bs : Str) : Str → List Nat → Nat → List Nat
  | [], prev, _ => prev
  | c :: as_, prev, i =>
    levRows bs as_ ((i + 1) :: levRowStep c bs prev (i + 1)) (i + 1)

/-- Model of `levenshtein(a, b)` from src/core/resolver.ts: classic
insert/delete/substitute edit distance via the dynamic-programming table
(`dp[i][0] = i`, `dp[0][j] = j`). -/
def levenshtein (a b : Str) : Nat :=
  (levRows b a (List.range (b.length + 1)) 0).getLastD 0

/-- The two candidate forms of a document compared by `findSuggestion` and
`resolveWikilink`: basename without extension, and full relative path
without extension (here already paired with the lowercased target): the
minimum of the two distances. -/
def candDist (targetLower : Str) (file : Str) : Nat :=
  let baseName := stripMd file
  let baseNameOnly := lastPart baseName
  Nat.min (levenshtein targetLower (lowerStr baseNameOnly))
    (levenshtein targetLower (lowerStr baseName))

/-- The acceptance threshold `Math.max(3, Math.floor(target.length * 0.4))`
of `findSuggestion` (`⌊0.4·n⌋ = 2n/5` in `Nat`). -/
def suggThreshold (target : Str) : Nat := Nat.max 3 (2 * target.length / 5)

/-- The fold of `findSuggestion`'s loop: `best` carries
`(bestMatch, bestDist)`; a file replaces it when its distance is strictly
smaller and within the threshold. -/
def findSuggestionAux (target : Str) : List Str → Option (Str × Nat) → Option (Str × Nat)
  | [], best => best
  | f :: fs, best =>
    let d := candDist (lowerStr target) f
    let keep : Bool :=
      (match best with
       | none => true
       | some (_, bd) => decide (d < bd)) && decide (d ≤ suggThreshold target)
    findSuggestionAux target fs (if keep then some (lastPart (stripMd f), d) else best)

/-- Model of `findSuggestion(target, allFiles)` from src/core/resolver.ts. -/
def findSuggestion (target : Str) (allFiles : List Str) : Option Str :=
  (findSuggestionAux target allFiles none).map (fun p => p.1)

/-- Model of `resolveWikilink(target, allFiles)`: the target equals, case
insensitively, some document's basename without extension or full relative
path without extension. -/
def resolveWikilink (target : Str) (allFiles : List Str) : Bool :=
  allFiles.any fun f =>
    let baseName := stripMd f
    let baseNameOnly := lastPart baseName
    lowerStr baseNameOnly == lowerStr target || lowerStr baseName == lowerStr target

/-! ### Path arithmetic (node:path, posix flavour)

`join` normalizes `.` and `..` components; `dirname` drops the last
component; `relative` strips the common prefix and climbs with `..`. -/

/-- Normalize path components: drop empty and `.` parts, let `..` cancel a
preceding real component. -/
def normComps : List Str → List Str → List Str
  | [], acc => acc.reverse
  | c :: cs, acc =>
    if c = [] || c = ['.'] then normComps cs acc
    else if c = ['.', '.'] then
      match acc with
      | [] => normComps cs (c :: acc)
      | a :: rest => if a = ['.', '.'] then normComps cs (c :: acc) else normComps cs rest
    else normComps cs (c :: acc)

/-- Model of `path.join(a, b)` for relative posix paths. -/
def joinPath (a b : Str) : Str :=
  match normComps (splitSlash a ++ splitSlash b) [] with
  | [] => ['.']
  | cs => joinSlash cs

/-- Model of `path.dirname(p)` for relative posix paths. -/
def dirnameP (p : Str) : Str :=
  match (splitSlash p).dropLast with
  | [] => ['.']
  | cs => joinSlash cs

/-- Model of `path.relative(a, b)` for relative posix paths: the empty
string when the normalized paths coincide. -/
def relativeP (a b : Str) : Str :=
  relComps (normComps (splitSlash a) []) (normComps (splitSlash b) [])
where
  relComps : List Str → List Str → Str
    | f :: fs, t :: ts =>
      if f = t then relComps fs ts
      else joinSlash (List.replicate (fs.length + 1) ['.', '.'] ++ t :: ts)
    | _f :: fs, [] => joinSlash (List.replicate (fs.length + 1) ['.', '.'])
    | [], ts => joinSlash ts

/-- Model of `resolveRelativeLink(target, fromFile, baseDir)`: join the
target against the referencing document's directory and test the real
filesystem, modelled by the predicate `fsex`. -/
def resolveRelativeLink (fsex : Str → Bool) (baseDir target fromFile : Str) : Bool :=
  fsex (joinPath (dirnameP (joinPath baseDir fromFile)) target)

/-- The `BrokenLink` record of resolver.ts: the unresolved reference plus
its suggestion. -/
structure BrokenLink where
  link : ExtractedLink
  suggestion : Option Str
  deriving DecidableEq, Repr

/-- Model of `findBrokenLinks(links, allFiles, baseDir)` from
src/core/resolver.ts; `fsex` models `existsSync`. -/
def findBrokenLinks (fsex : Str → Bool) (links : List ExtractedLink)
    (allFiles : List Str) (baseDir : Str) : List BrokenLink :=
  match links with
  | [] => []
  | l :: ls =>
    let isValid :=
      match l.type with
      | .wikilink => resolveWikilink l.target allFiles
      | .relative => resolveRelativeLink fsex baseDir l.target l.file
    if isValid then findBrokenLinks fsex ls allFiles baseDir
    else ⟨l, findSuggestion l.target allFiles⟩ :: findBrokenLinks fsex ls allFiles baseDir

/-! ## Rename propagation (src/core/mover.ts) -/

/-- The `LinkUpdate` record of mover.ts. -/
structure LinkUpdate where
  file : Str
  line : Nat
  oldRaw : Str
  newRaw : Str
  deriving DecidableEq, Repr

/-- The `MoveResult` record of mover.ts. -/
structure MoveResult where
  moved : Bool
  old : Str
  new : Str
  links_updated : Nat
  files_updated : List Str
  updates : List LinkUpdate
  deriving DecidableEq, Repr

/-- Filesystem model: the markdown corpus as an association list from
relative path to content, plus the other existing filesystem entries. -/
structure FS where
  docs : List (Str × Str)
  others : List Str
  deriving DecidableEq, Repr

/-- Normalize a path for existence checks (`resolve` against the base). -/
def normPath (p : Str) : Str :=
  match normComps (splitSlash p) [] with
  | [] => ['.']
  | cs => joinSlash cs

/-- Model of `existsSync(resolve(baseDir, p))` over the filesystem model. -/
def fsExists (fs : FS) (p : Str) : Bool :=
  fs.docs.any (fun d => normPath d.1 == normPath p) ||
  fs.others.any (fun o => normPath o == normPath p)

/-- Model of `path.basename(p, '.md')`: the last component, with a trailing
`.md` stripped unless the component is `.md` itself. -/
def basenameMd (p : Str) : Str :=
  let b := lastPart p
  if b = ".md".toList then b else stripMd b

/-- Model of `s.replace(/\\/g, '/')` (backslash normalization). -/
def slashify (s : Str) : Str := s.map fun c => if c = '\\' then '/' else c

/-- Model of JS `line.replace(oldRaw, newRaw)` with string arguments:
replace the first occurrence (the line unchanged when absent). -/
def replaceFirst (pat rep : Str) : Str → Str
  | [] => if pat.isEmpty then rep else []
  | c :: rest =>
    if pat.isPrefixOf (c :: rest) then rep ++ (c :: rest).drop pat.length
    else c :: replaceFirst pat rep rest

/-- Model of mover.ts's anchor recovery
`match[0].match(/#([^\]|]*)/)?.[0] ?? ''`: from the first `#` of the raw
match, the `#` and its following `[^\]|]*` run (empty when no `#`). -/
def anchorOf (raw : Str) : Str :=
  match raw.dropWhile (fun c => !(c = '#')) with
  | '#' :: rest => '#' :: rest.takeWhile isHeadChar
  | _ => []

/-- Find the first wiki-regex match of `line` at index ≥ `i`, where `prev`
is the character just before index `i` (the `(?<!!)` lookbehind inspects
the full string, also before `lastIndex`). -/
def findWikiFrom : Nat → Option Char → Nat → Str → Option WikiMatch
  | _, _, _, [] => none
  | 0, _, _, _ => none
  | fuel + 1, prev, i, c :: rest =>
    if prev = some '!' then findWikiFrom fuel (some c) (i + 1) rest
    else
      match matchWikiAt (c :: rest) with
      | some (raw, g1, al) => some ⟨i, raw, g1, al⟩
      | none => findWikiFrom fuel (some c) (i + 1) rest

/-- Model of `wikiRe.exec(line)` with `wikiRe.lastIndex = start`. -/
def execWikiFrom (line : Str) (start : Nat) : Option WikiMatch :=
  if line.length < start then none
  else
    findWikiFrom (line.length + 1) ((line.take start).getLast?) start (line.drop start)

/-- The old- and new-name forms computed once per `moveFile` call. -/
structure MoveNames where
  oldPath : Str
  newPath : Str
  oldBase : Str
  oldRel : Str
  newBase : Str
  newRel : Str
  deriving Repr

/-- The wikilink loop of mover.ts on one line: repeatedly `exec` on the
current (already partially rewritten) line from the saved `lastIndex`;
a match whose trimmed target case-insensitively equals the old basename or
the old relative path is rebuilt (path form iff the original target
contains `/`, re-attaching the first `#`-run of the raw match and the alias
capture) and substituted for the first occurrence of the raw match.
`fuel` bounds the loop; `lastIndex` grows by at least 5 per step. -/
def moverWikiLine (mn : MoveNames) (file : Str) (lineNo : Nat) :
    Nat → Nat → Str → Str × List LinkUpdate
  | 0, _, line => (line, [])
  | fuel + 1, lastIndex, line =>
    match execWikiFrom line lastIndex with
    | none => (line, [])
    | some m =>
      let target := trimStr m.target1
      let targetLower := lowerStr target
      if targetLower = lowerStr mn.oldBase || targetLower = lowerStr mn.oldRel then
        let usePath := target.contains '/'
        let newTarget := if usePath then mn.newRel else mn.newBase
        let oldRaw := m.raw
        let anchor := anchorOf m.raw
        let aliasSeg :=
          match m.alias2 with
          | some a => '|' :: a
          | none => []
        let newRaw := '[' :: '[' :: newTarget ++ anchor ++ aliasSeg ++ [']', ']']
        if oldRaw ≠ newRaw then
          let line' := replaceFirst oldRaw newRaw line
          let r := moverWikiLine mn file lineNo fuel (m.start + m.raw.length) line'
          (r.1, ⟨file, lineNo, oldRaw, newRaw⟩ :: r.2)
        else moverWikiLine mn file lineNo fuel (m.start + m.raw.length) line
      else moverWikiLine mn file lineNo fuel (m.start + m.raw.length) line

/-- The relative-link loop of mover.ts on one line: the matches come from
the original line (`relRe.exec(lines[i])` — the array entry is only
written back after both loops), while replacements apply to the current
line value. -/
def moverRelLine (mn : MoveNames) (file : Str) (lineNo : Nat) :
    List RelMatch → Str → Str × List LinkUpdate
  | [], line => (line, [])
  | m :: ms, line =>
    let href := trimStr m.href
    if isExternalHref href then moverRelLine mn file lineNo ms line
    else
      let hrefPath := href.takeWhile (fun c => !(c = '#'))
      let anchor := href.dropWhile (fun c => !(c = '#'))
      if hrefPath.isEmpty then moverRelLine mn file lineNo ms line
      else
        let fileDir := dirnameP file
        let resolvedHref := joinPath fileDir hrefPath
        let normalizedOld := slashify mn.oldPath
        let normalizedHref := slashify resolvedHref
        if normalizedHref = normalizedOld then
          let simpleRelBase := slashify (relativeP fileDir mn.newPath)
          let simpleRel := if simpleRelBase.isEmpty then lastPart mn.newPath else simpleRelBase
          let finalHref := simpleRel ++ anchor
          let oldRaw := m.raw
          let newRaw := '[' :: m.label ++ ']' :: '(' :: finalHref ++ [')']
          if oldRaw ≠ newRaw then
            let r := moverRelLine mn file lineNo ms (replaceFirst oldRaw newRaw line)
            (r.1, ⟨file, lineNo, oldRaw, newRaw⟩ :: r.2)
          else moverRelLine mn file lineNo ms line
        else moverRelLine mn file lineNo ms line

/-- Process one line of one document: the wikilink loop, then the
relative-link loop. -/
def moverLine (mn : MoveNames) (file : Str) (lineNo : Nat) (line : Str) :
    Str × List LinkUpdate :=
  let w := moverWikiLine mn file lineNo (line.length + 1) 0 line
  let r := moverRelLine mn file lineNo (scanRel line) w.1
  (r.1, w.2 ++ r.2)

/-- Process one document: split into lines, rewrite each, and re-join. -/
def moverDoc (mn : MoveNames) (file content : Str) : Str × List LinkUpdate :=
  let processed := (splitLines content).enum.map fun p => moverLine mn file (p.1 + 1) p.2
  (joinNl (processed.map fun q => q.1), (processed.map fun q => q.2).flatten)
where
  joinNl : List Str → Str
    | [] => []
    | [l] => l
    | l :: ls => l ++ '\n' :: joinNl ls

/-- First-occurrence deduplication with the already-seen elements carried
along, the order `[...new Set(xs)]` keeps. -/
def dedupFirstAux (seen : List Str) : List Str → List Str
  | [] => []
  | x :: xs =>
    if seen.contains x then dedupFirstAux seen xs
    else x :: dedupFirstAux (x :: seen) xs

/-- First-occurrence deduplication, the order `[...new Set(xs)]` keeps. -/
def dedupFirst (xs : List Str) : List Str := dedupFirstAux [] xs

/-- Move a document entry from `oldPath` to `newPath` in the filesystem
model (`renameSync`, with the copy-then-delete fallback having the same
effect on this model). -/
def fsMove (fs : FS) (oldPath newPath : Str) : FS :=
  if fs.docs.any (fun d => d.1 == oldPath) then
    ⟨fs.docs.map (fun d => if d.1 == oldPath then (newPath, d.2) else d), fs.others⟩
  else
    ⟨fs.docs, fs.others.map (fun o => if o == oldPath then newPath else o)⟩

/-- Model of `moveFile(baseDir, oldPath, newPath, opts)` from
src/core/mover.ts.  Returns the `MoveResult` together with the filesystem
after the call; precondition failures surface as `Except.error` with the
thrown message. -/
def moveFile (fs : FS) (oldPath newPath : Str) (dryRun : Bool) :
    Except Str (MoveResult × FS) :=
  if !fsExists fs oldPath then
    .error ("source does not exist: ".toList ++ oldPath)
  else if fsExists fs newPath then
    .error ("destination already exists: ".toList ++ newPath)
  else
    let mn : MoveNames :=
      ⟨oldPath, newPath, basenameMd oldPath, stripMd oldPath,
        basenameMd newPath, stripMd newPath⟩
    let processed := fs.docs.map fun d => (d.1, moverDoc mn d.1 d.2)
    let updates := (processed.map fun p => p.2.2).flatten
    let filesUpdated := dedupFirst (updates.map fun u => u.file)
    let result : MoveResult :=
      ⟨!dryRun, oldPath, newPath, updates.length, filesUpdated, updates⟩
    if dryRun then .ok (result, fs)
    else
      let written : FS := ⟨processed.map fun p => (p.1, p.2.1), fs.others⟩
      .ok (result, fsMove written oldPath newPath)

/-- Loop invariant of `findSuggestionAux`: after processing the prefix `pl`
of the file list, an empty accumulator means every processed file missed
the threshold, and an occupied accumulator records the first file that
attains the running minimum accepted distance. -/
def BestInv (target : Str) (pl : List Str) : Option (Str × Nat) → Prop
  | none => ∀ g ∈ pl, suggThreshold target < candDist (lowerStr target) g
  | some (s0, d0) =>
    ∃ pre f suf, pl = pre ++ f :: suf ∧
      s0 = lastPart (stripMd f) ∧ d0 = candDist (lowerStr target) f ∧
      d0 ≤ suggThreshold target ∧
      (∀ g ∈ pre, d0 < candDist (lowerStr target) g) ∧
      (∀ g ∈ suf, d0 ≤ candDist (lowerStr target) g)

/-! ## Claim theorems -/

/-- C1: the rename operation is claimed to preserve the heading fragment and
alias segment of every rewritten `Named` reference verbatim (and the mover's
own comment says "preserve alias and anchor").  At the failing input below
the alias contains a `#`; the anchor recovery `match[0].match(/#([^\]|]*)/)`
picks that `#` run out of the alias, so `[[lessons|see #3]]` is rewritten to
`[[other#3|see #3]]`: a heading fragment `#3` is invented where the original
reference had none (the preserving rewrite would be `[[other|see #3]]`). -/
theorem C1_anchor_injected_at_failing_input :
    (moveFile
        ⟨[("lessons.md".toList, "# L".toList),
          ("note.md".toList, "[[lessons|see #3]]".toList)], []⟩
        "lessons.md".toList "other.md".toList false).toOption.map
        (fun p => (p.1.updates.map fun u => (u.oldRaw, u.newRaw),
          p.2.docs.map fun d => d.2)) =
      some ([("[[lessons|see #3]]".toList, "[[other#3|see #3]]".toList)],
        ["# L".toList, "[[other#3|see #3]]".toList]) ∧
    "[[other#3|see #3]]".toList ≠ "[[other|see #3]]".toList := by
  exact ⟨by decide, by decide⟩

/-- C3: renaming A→B and then B→A is claimed to restore every rewritten
reference to its original raw text.  Because of the anchor-recovery slip
shown in `C1_anchor_injected_at_failing_input`, the reference
`[[lessons|see #3]]` becomes `[[other#3|see #3]]` on the way out and
`[[lessons#3|see #3]]` on the way back: the round trip does not restore the
original raw text. -/
theorem C3_round_trip_not_restored :
    ((moveFile
          ⟨[("lessons.md".toList, "x".toList),
            ("note.md".toList, "[[lessons|see #3]]".toList)], []⟩
          "lessons.md".toList "other.md".toList false).toOption.bind
        (fun p => (moveFile p.2 "other.md".toList "lessons.md".toList false).toOption)).map
        (fun p => p.2.docs.map fun d => d.2) =
      some ["x".toList, "[[lessons#3|see #3]]".toList] ∧
    "[[lessons#3|see #3]]".toList ≠ "[[lessons|see #3]]".toList := by
  exact ⟨by decide, by decide⟩

/-- C5: when the old path does not exist, or the new path already exists,
`moveFile` fails with the corresponding descriptive error before any
mutation (the model returns `Except.error` and no successor filesystem, so
no document content is rewritten and no file is moved). -/
theorem C5_precondition_errors_no_mutation (fs : FS) (oldPath newPath : Str)
    (dryRun : Bool) :
    (fsExists fs oldPath = false →
      moveFile fs oldPath newPath dryRun =
        .error ("source does not exist: ".toList ++ oldPath)) ∧
    (fsExists fs oldPath = true → fsExists fs newPath = true →
      moveFile fs oldPath newPath dryRun =
        .error ("destination already exists: ".toList ++ newPath)) := by
  constructor
  · intro h; simp [moveFile, h]
  · intro h1 h2; simp [moveFile, h1, h2]

/-- Closed instance of `C5_precondition_errors_no_mutation` at a concrete
filesystem with a missing source. -/
theorem C5_witness :
    fsExists ⟨[("a.md".toList, "x".toList)], []⟩ "gone.md".toList = false ∧
    moveFile ⟨[("a.md".toList, "x".toList)], []⟩ "gone.md".toList "b.md".toList false =
      .error ("source does not exist: ".toList ++ "gone.md".toList) :=
  ⟨by decide,
    (C5_precondition_errors_no_mutation ⟨[("a.md".toList, "x".toList)], []⟩
      "gone.md".toList "b.md".toList false).1 (by decide)⟩

/-- C4: a preview-mode (`dryRun`) rename leaves the filesystem untouched
and returns exactly the records a live rename on the same input would
produce (in particular the same count). -/
theorem C4_preview_frame_and_same_records (fs : FS) (oldPath newPath : Str)
    (r : MoveResult) (fs1 : FS)
    (h : moveFile fs oldPath newPath true = .ok (r, fs1)) :
    fs1 = fs ∧ ∃ r2 fs2, moveFile fs oldPath newPath false = .ok (r2, fs2) ∧
      r2.updates = r.updates ∧ r2.links_updated = r.links_updated := by
  by_cases h1 : fsExists fs oldPath
  · by_cases h2 : fsExists fs newPath
    · simp [moveFile, h1, h2] at h
    · simp only [moveFile, h1, h2, Bool.not_true, Bool.false_eq_true, if_false,
        if_true, ite_false, ite_true] at h ⊢
      obtain ⟨hr, hfs⟩ := Prod.mk.injEq .. ▸ Except.ok.inj h
      refine ⟨hfs.symm, _, _, rfl, ?_, ?_⟩ <;> rw [← hr]
  · simp [moveFile, h1] at h

/-- Closed instance of `C4_preview_frame_and_same_records` at a concrete
corpus with one rewritten reference. -/
theorem C4_witness :
    ∃ r2 fs2, moveFile
        ⟨[("lessons.md".toList, "x".toList),
          ("a.md".toList, "see [[lessons]]".toList)], []⟩
        "lessons.md".toList "b.md".toList false = .ok (r2, fs2) ∧
      r2.links_updated = 1 := by
  obtain ⟨-, r2, fs2, hok, -, hcnt⟩ :=
    C4_preview_frame_and_same_records
      ⟨[("lessons.md".toList, "x".toList),
        ("a.md".toList, "see [[lessons]]".toList)], []⟩
      "lessons.md".toList "b.md".toList
      ⟨false, "lessons.md".toList, "b.md".toList, 1, ["a.md".toList],
        [⟨"a.md".toList, 1, "[[lessons]]".toList, "[[b]]".toList⟩]⟩
      ⟨[("lessons.md".toList, "x".toList),
        ("a.md".toList, "see [[lessons]]".toList)], []⟩
      (by rfl)
  exact ⟨r2, fs2, hok, by rw [hcnt]⟩

/-- C2 counterexample: the suggestion attached to an unresolved reference is
claimed to never equal the reference's target verbatim.  For a `PathLike`
reference that argument fails: resolution checks the real filesystem while
the suggestion is matched against the document list, so the broken relative
link `[lessons](lessons)` in a corpus containing `lessons.md` gets the
suggestion `lessons` — verbatim equal to its target. -/
theorem C2_suggestion_equals_target_counterexample :
    findBrokenLinks (fun _ => false)
        [⟨"index.md".toList, 1, "[lessons](lessons)".toList, "lessons".toList, .relative⟩]
        ["lessons.md".toList] ".".toList =
      [⟨⟨"index.md".toList, 1, "[lessons](lessons)".toList, "lessons".toList, .relative⟩,
        some "lessons".toList⟩] := by
  decide

/-- C9: every record returned by `findBrokenLinks` is one of the input
references with all fields unchanged (only the suggestion added), and the
output is an order-preserving subsequence of the input. -/
theorem C9_resolver_frame (fsex : Str → Bool) (links : List ExtractedLink)
    (allFiles : List Str) (baseDir : Str) :
    List.Sublist ((findBrokenLinks fsex links allFiles baseDir).map fun b => b.link)
      links := by
  induction links with
  | nil => simp [findBrokenLinks]
  | cons l ls ih =>
    rw [findBrokenLinks]
    split
    · exact ih.cons l
    · simpa using ih.cons₂ l

/-- The loop of `findSuggestion` preserves `BestInv`. -/
theorem findSuggestionAux_inv (target : Str) (fs : List Str) :
    ∀ (pl : List Str) (best : Option (Str × Nat)), BestInv target pl best →
      BestInv target (pl ++ fs) (findSuggestionAux target fs best) := by
  induction fs with
  | nil => intro pl best h; simpa using h
  | cons f fs ih =>
    intro pl best h
    have hsplit : pl ++ f :: fs = (pl ++ [f]) ++ fs := by simp
    rw [hsplit]
    cases best with
    | none =>
      by_cases hdT : candDist (lowerStr target) f ≤ suggThreshold target
      · simp only [findSuggestionAux, Bool.true_and]
        rw [if_pos (decide_eq_true hdT)]
        refine ih (pl ++ [f]) _ ⟨pl, f, [], by simp, rfl, rfl, hdT, ?_, by simp⟩
        intro g hg
        exact lt_of_le_of_lt hdT (h g hg)
      · simp only [findSuggestionAux, Bool.true_and]
        rw [if_neg (by simpa using hdT)]
        refine ih (pl ++ [f]) none ?_
        intro g hg
        rcases List.mem_append.mp hg with hg | hg
        · exact h g hg
        · rcases List.mem_cons.mp hg with rfl | hg
          · exact Nat.lt_of_not_le hdT
          · cases hg
    | some p =>
      obtain ⟨s0, d0⟩ := p
      obtain ⟨pre, f0, suf, hpl, hs0, hd0, hdle0, hpre, hsuf⟩ := h
      by_cases h1 : candDist (lowerStr target) f < d0
      · by_cases h2 : candDist (lowerStr target) f ≤ suggThreshold target
        · simp only [findSuggestionAux]
          rw [if_pos (by rw [decide_eq_true h1, decide_eq_true h2]; rfl)]
          refine ih (pl ++ [f]) _ ⟨pl, f, [], by simp, rfl, rfl, h2, ?_, by simp⟩
          intro g hg
          rw [hpl] at hg
          rcases List.mem_append.mp hg with hg | hg
          · exact h1.trans (hd0 ▸ hpre g hg)
          · rcases List.mem_cons.mp hg with rfl | hg
            · exact hd0 ▸ h1
            · exact lt_of_lt_of_le h1 (hd0 ▸ hsuf g hg)
        · simp only [findSuggestionAux]
          rw [if_neg (by simp [h2])]
          refine ih (pl ++ [f]) _
            ⟨pre, f0, suf ++ [f], by rw [hpl]; simp, hs0, hd0, hdle0, hpre, ?_⟩
          intro g hg
          rcases List.mem_append.mp hg with hg | hg
          · exact hsuf g hg
          · rcases List.mem_cons.mp hg with rfl | hg
            · exact le_trans hdle0 (Nat.le_of_lt (Nat.lt_of_not_le h2))
            · cases hg
      · simp only [findSuggestionAux]
        rw [if_neg (by simp [h1])]
        refine ih (pl ++ [f]) _
          ⟨pre, f0, suf ++ [f], by rw [hpl]; simp, hs0, hd0, hdle0, hpre, ?_⟩
        intro g hg
        rcases List.mem_append.mp hg with hg | hg
        · exact hsuf g hg
        · rcases List.mem_cons.mp hg with rfl | hg
          · exact Nat.le_of_not_lt h1
          · cases hg

/-- Full characterization of a successful `findSuggestion`: the returned
string is the basename (without extension) of the first file attaining the
minimal accepted candidate distance, and that distance is within the
threshold. -/
theorem findSuggestion_char (target : Str) (files : List Str) (s : Str)
    (h : findSuggestion target files = some s) :
    ∃ pre f suf, files = pre ++ f :: suf ∧ s = lastPart (stripMd f) ∧
      candDist (lowerStr target) f ≤ suggThreshold target ∧
      (∀ g ∈ pre, candDist (lowerStr target) f < candDist (lowerStr target) g) ∧
      (∀ g ∈ suf, candDist (lowerStr target) f ≤ candDist (lowerStr target) g) := by
  unfold findSuggestion at h
  cases hb : findSuggestionAux target files none with
  | none => rw [hb] at h; cases h
  | some p =>
    obtain ⟨s0, d0⟩ := p
    rw [hb] at h
    have hs : s0 = s := by simpa using h
    have hinv := findSuggestionAux_inv target files [] none (by intro g hg; cases hg)
    rw [hb] at hinv
    obtain ⟨pre, f, suf, hfiles, hs0, hd0, hdle, hpre, hsuf⟩ := hinv
    exact ⟨pre, f, suf, by simpa using hfiles, hs ▸ hs0, hd0 ▸ hdle,
      fun g hg => hd0 ▸ hpre g hg, fun g hg => hd0 ▸ hsuf g hg⟩

/-- C6: when the similarity matcher returns a suggestion, the suggested
document's candidate distance (minimum over basename-without-extension and
relative-path-without-extension, case-insensitively) is within
`max(3, ⌊0.4·len⌋)`, the returned string is that document's basename
without extension, and among equally distant candidates the first in
enumeration order wins (every earlier file has strictly larger distance,
every later file no smaller distance). -/
theorem C6_matcher_spec (target : Str) (files : List Str) (s : Str)
    (h : findSuggestion target files = some s) :
    ∃ pre f suf, files = pre ++ f :: suf ∧ s = lastPart (stripMd f) ∧
      candDist (lowerStr target) f ≤ suggThreshold target ∧
      (∀ g ∈ pre, candDist (lowerStr target) f < candDist (lowerStr target) g) ∧
      (∀ g ∈ suf, candDist (lowerStr target) f ≤ candDist (lowerStr target) g) ∧
      (∀ g ∈ files, candDist (lowerStr target) g ≤ suggThreshold target →
        candDist (lowerStr target) f ≤ candDist (lowerStr target) g) := by
  obtain ⟨pre, f, suf, hfiles, hs, hdle, hpre, hsuf⟩ := findSuggestion_char target files s h
  refine ⟨pre, f, suf, hfiles, hs, hdle, hpre, hsuf, ?_⟩
  intro g hg _
  rw [hfiles] at hg
  rcases List.mem_append.mp hg with hg | hg
  · exact Nat.le_of_lt (hpre g hg)
  · rcases List.mem_cons.mp hg with rfl | hg
    · exact Nat.le_refl _
    · exact hsuf g hg

/-- Closed instance of `C6_matcher_spec`: the spec's scenario `RAEDME`
against `{README.md, NOW.md}` suggests `README`. -/
theorem C6_witness :
    ∃ pre f suf, ["README.md".toList, "NOW.md".toList] = pre ++ f :: suf ∧
      "README".toList = lastPart (stripMd f) ∧
      candDist (lowerStr "RAEDME".toList) f ≤ suggThreshold "RAEDME".toList ∧
      (∀ g ∈ pre, candDist (lowerStr "RAEDME".toList) f <
        candDist (lowerStr "RAEDME".toList) g) ∧
      (∀ g ∈ suf, candDist (lowerStr "RAEDME".toList) f ≤
        candDist (lowerStr "RAEDME".toList) g) ∧
      (∀ g ∈ ["README.md".toList, "NOW.md".toList],
        candDist (lowerStr "RAEDME".toList) g ≤ suggThreshold "RAEDME".toList →
        candDist (lowerStr "RAEDME".toList) f ≤ candDist (lowerStr "RAEDME".toList) g) :=
  C6_matcher_spec "RAEDME".toList ["README.md".toList, "NOW.md".toList]
    "README".toList (by decide)

/-- A wikilink that fails to resolve shares its lowercased form with no
document basename. -/
theorem resolveWikilink_false_ne (target : Str) (files : List Str)
    (h : resolveWikilink target files = false) :
    ∀ f ∈ files, lowerStr (lastPart (stripMd f)) ≠ lowerStr target := by
  intro f hf heq
  have htrue : resolveWikilink target files = true := by
    unfold resolveWikilink
    rw [List.any_eq_true]
    exact ⟨f, hf, by simp [heq]⟩
  rw [h] at htrue
  cases htrue

/-- C2 (amended): for every reference emitted as unresolved, the attached
suggestion is non-null only if some corpus document is within the
similarity threshold of the target; for `Named` (wikilink) references the
suggestion is never the target verbatim.  (For `PathLike` references the
verbatim-inequality half fails; see
`C2_suggestion_equals_target_counterexample`.) -/
theorem C2_amended_suggestion_invariant (fsex : Str → Bool)
    (links : List ExtractedLink) (allFiles : List Str) (baseDir : Str)
    (b : BrokenLink) (hb : b ∈ findBrokenLinks fsex links allFiles baseDir) :
    (∀ s, b.suggestion = some s →
      ∃ f ∈ allFiles,
        candDist (lowerStr b.link.target) f ≤ suggThreshold b.link.target) ∧
    (b.link.type = .wikilink → b.suggestion ≠ some b.link.target) := by
  induction links with
  | nil => cases hb
  | cons l ls ih =>
    rw [findBrokenLinks] at hb
    by_cases hval : (match l.type with
        | LinkType.wikilink => resolveWikilink l.target allFiles
        | LinkType.relative => resolveRelativeLink fsex baseDir l.target l.file) = true
    · rw [if_pos hval] at hb
      exact ih hb
    · rw [if_neg hval] at hb
      rcases List.mem_cons.mp hb with rfl | hb
      · constructor
        · intro s hs
          obtain ⟨pre, f, suf, hfiles, -, hdle, -, -⟩ :=
            findSuggestion_char l.target allFiles s hs
          exact ⟨f, by rw [hfiles]; simp, hdle⟩
        · intro htype heq
          have hrw : resolveWikilink l.target allFiles = false := by
            rw [htype] at hval
            cases hres : resolveWikilink l.target allFiles with
            | false => rfl
            | true => exact absurd hres hval
          obtain ⟨pre, f, suf, hfiles, hsf, -, -, -⟩ :=
            findSuggestion_char l.target allFiles l.target (by simpa using heq)
          exact resolveWikilink_false_ne l.target allFiles hrw f
            (by rw [hfiles]; simp) (by rw [← hsf])
      · exact ih hb

/-- Closed instance of `C2_amended_suggestion_invariant`: the unresolved
wikilink `[[RAEDME]]` gets the suggestion `README`, which differs from its
target. -/
theorem C2_amended_witness :
    (some "README".toList : Option Str) ≠ some "RAEDME".toList :=
  (C2_amended_suggestion_invariant (fun _ => false)
    [⟨"i.md".toList, 1, "[[RAEDME]]".toList, "RAEDME".toList, .wikilink⟩]
    ["README.md".toList] ".".toList
    ⟨⟨"i.md".toList, 1, "[[RAEDME]]".toList, "RAEDME".toList, .wikilink⟩,
      some "README".toList⟩
    (by decide)).2 rfl

/-- C10: a double-bracket span whose interior is only whitespace yields a
`Named` reference with empty target (`[[ ]]` extracts with `target = ""`),
whereas every extracted `PathLike` reference has a non-empty target (an
href that is empty after trimming and fragment-stripping is discarded). -/
theorem C10_empty_named_target :
    extractLinks "x.md".toList "[[ ]]".toList =
      [⟨"x.md".toList, 1, "[[ ]]".toList, [], .wikilink⟩] ∧
    ∀ (file content : Str) (l : ExtractedLink), l ∈ extractLinks file content →
      l.type = .relative → l.target ≠ [] := by
  constructor
  · decide
  · intro file content l hl htype
    unfold extractLinks at hl
    rw [List.mem_flatten] at hl
    obtain ⟨bl, hbl, hlbl⟩ := hl
    rw [List.mem_map] at hbl
    obtain ⟨p, -, rfl⟩ := hbl
    unfold extractLine at hlbl
    rcases List.mem_append.mp hlbl with hw | hr
    · rw [List.mem_map] at hw
      obtain ⟨m, -, rfl⟩ := hw
      simp [wikiToLink] at htype
    · rw [List.mem_filterMap] at hr
      obtain ⟨m, -, hsome⟩ := hr
      simp only [relToLink] at hsome
      split at hsome
      · cases hsome
      · split at hsome
        next hguard => cases hsome
        next hguard =>
          obtain rfl := Option.some.inj hsome
          intro hnil
          exact hguard (by simp [List.isEmpty_iff] at hnil ⊢; exact hnil)

/-- Closed instance of `C10_empty_named_target` at a concrete relative
link. -/
theorem C10_witness : ("z.md".toList : Str) ≠ [] :=
  C10_empty_named_target.2 "f.md".toList "[y](z.md)".toList
    ⟨"f.md".toList, 1, "[y](z.md)".toList, "z.md".toList, .relative⟩
    (by decide) rfl

/-! ## Symbolic evaluation of the wiki matcher (for C7 and C8) -/

/-- A `takeWhile` run extends over a block that satisfies the predicate. -/
theorem takeWhile_all_app (p : Char → Bool) (xs ys : Str)
    (h : ∀ a ∈ xs, p a = true) :
    (xs ++ ys).takeWhile p = xs ++ ys.takeWhile p := by
  induction xs with
  | nil => simp
  | cons x xs ih =>
    have hx := h x (List.mem_cons_self x xs)
    simp only [List.cons_append, List.takeWhile_cons, hx, if_true]
    rw [ih fun a ha => h a (List.mem_cons_of_mem x ha)]

/-- Definitional reduction of `matchAlias` at a `|` head. -/
theorem matchAlias_cons_bar (X : Str) :
    matchAlias ('|' :: X) =
      (match X.drop (X.takeWhile isAliasChar).length with
       | ']' :: ']' :: _ =>
         some ('|' :: X.takeWhile isAliasChar ++ [']', ']'],
           some (X.takeWhile isAliasChar))
       | _ => none) := rfl

/-- `matchAlias` on an alias block followed by the closing brackets. -/
theorem matchAlias_alias (b rest : Str) (hb : ∀ c ∈ b, isAliasChar c = true) :
    matchAlias ('|' :: (b ++ ']' :: ']' :: rest)) =
      some ('|' :: (b ++ [']', ']']), some b) := by
  have h1 : (b ++ ']' :: ']' :: rest).takeWhile isAliasChar = b := by
    rw [takeWhile_all_app _ _ _ hb]
    simp [List.takeWhile_cons, isAliasChar]
  rw [matchAlias_cons_bar, h1, List.drop_left]
  rfl

/-- `matchHeadingTail` with neither heading nor alias. -/
theorem matchHeadingTail_plain (rest : Str) :
    matchHeadingTail (']' :: ']' :: rest) = some ([']', ']'], none) := rfl

/-- `matchHeadingTail` with an alias but no heading. -/
theorem matchHeadingTail_alias (b rest : Str)
    (hb : ∀ c ∈ b, isAliasChar c = true) :
    matchHeadingTail ('|' :: (b ++ ']' :: ']' :: rest)) =
      some ('|' :: (b ++ [']', ']']), some b) := by
  rw [show matchHeadingTail ('|' :: (b ++ ']' :: ']' :: rest)) =
      matchAlias ('|' :: (b ++ ']' :: ']' :: rest)) from rfl]
  exact matchAlias_alias b rest hb

/-- Definitional reduction of `matchHeadingTail` at a `#` head. -/
theorem matchHeadingTail_cons_hash (X : Str) :
    matchHeadingTail ('#' :: X) =
      (match matchAlias (X.drop (X.takeWhile isHeadChar).length) with
       | some (c, al) => some ('#' :: X.takeWhile isHeadChar ++ c, al)
       | none => matchAlias ('#' :: X)) := rfl

/-- `matchHeadingTail` with a heading but no alias. -/
theorem matchHeadingTail_heading (h rest : Str)
    (hh : ∀ c ∈ h, isHeadChar c = true) :
    matchHeadingTail ('#' :: (h ++ ']' :: ']' :: rest)) =
      some ('#' :: (h ++ [']', ']']), none) := by
  have h1 : (h ++ ']' :: ']' :: rest).takeWhile isHeadChar = h := by
    rw [takeWhile_all_app _ _ _ hh]
    simp [List.takeWhile_cons, isHeadChar]
  rw [matchHeadingTail_cons_hash, h1, List.drop_left]
  rfl

/-- `matchHeadingTail` with a heading followed by an alias. -/
theorem matchHeadingTail_heading_alias (h b rest : Str)
    (hh : ∀ c ∈ h, isHeadChar c = true) (hb : ∀ c ∈ b, isAliasChar c = true) :
    matchHeadingTail ('#' :: (h ++ '|' :: (b ++ ']' :: ']' :: rest))) =
      some ('#' :: (h ++ '|' :: (b ++ [']', ']'])), some b) := by
  have h1 : (h ++ '|' :: (b ++ ']' :: ']' :: rest)).takeWhile isHeadChar = h := by
    rw [takeWhile_all_app _ _ _ hh]
    simp [List.takeWhile_cons, isHeadChar]
  rw [matchHeadingTail_cons_hash, h1, List.drop_left, matchAlias_alias b rest hb]
  rfl

/-- Definitional reduction of `matchWikiAt` at a `[[` head. -/
theorem matchWikiAt_cons (rest : Str) :
    matchWikiAt ('[' :: '[' :: rest) =
      (if (rest.takeWhile isG1).isEmpty then none
       else
         match matchHeadingTail (rest.drop (rest.takeWhile isG1).length) with
         | some (c, al) =>
           some ('[' :: '[' :: rest.takeWhile isG1 ++ c, rest.takeWhile isG1, al)
         | none => none) := rfl

/-- `matchWikiAt` on a well-formed name block followed by a parsed tail. -/
theorem matchWikiAt_eq (a : Str) (d : Char) (ts : Str) (c : Str)
    (al : Option Str) (ha : ∀ x ∈ a, isG1 x = true) (hne : a ≠ [])
    (hd : isG1 d = false) (hmt : matchHeadingTail (d :: ts) = some (c, al)) :
    matchWikiAt ('[' :: '[' :: (a ++ d :: ts)) =
      some ('[' :: '[' :: (a ++ c), a, al) := by
  have h1 : (a ++ d :: ts).takeWhile isG1 = a := by
    rw [takeWhile_all_app _ _ _ ha]
    simp [List.takeWhile_cons, hd]
  have h2 : a.isEmpty = false := by
    cases a with
    | nil => exact absurd rfl hne
    | cons x xs => rfl
  rw [matchWikiAt_cons, h1, h2, List.drop_left, hmt]
  simp

/-- A line consisting of exactly one wiki match scans to that single
match. -/
theorem scanWikiAux_exact (fuel : Nat) (prev : Option Char) (i : Nat)
    (s : Str) (g1 : Str) (al : Option Str) (hprev : prev ≠ some '!')
    (hm : matchWikiAt s = some (s, g1, al)) (hne : s ≠ []) :
    scanWikiAux (fuel + 1) prev i s = [⟨i, s, g1, al⟩] := by
  cases s with
  | nil => exact absurd rfl hne
  | cons c rest =>
    rw [scanWikiAux, if_neg hprev, hm]
    simp [List.drop_length, scanWikiAux]

/-- A line consisting of exactly one wiki match scans to that single
match. -/
theorem scanWiki_exact (s : Str) (g1 : Str) (al : Option Str)
    (hm : matchWikiAt s = some (s, g1, al)) (hne : s ≠ []) :
    scanWiki s = [⟨0, s, g1, al⟩] := by
  unfold scanWiki
  rw [show s.length + 1 = s.length + 1 from rfl]
  exact scanWikiAux_exact s.length none 0 s g1 al (by simp) hm hne

/-- A newline-free string splits into a single line. -/
theorem splitLines_no_nl (s : Str) (h : '\n' ∉ s) : splitLines s = [s] := by
  induction s with
  | nil => rfl
  | cons c rest ih =>
    rw [splitLines, if_neg (by intro hc; exact h (hc ▸ List.mem_cons_self c rest)),
      ih fun hr => h (List.mem_cons_of_mem c hr)]

/-- Extraction of a newline-free content is extraction of its only line. -/
theorem extractLinks_single_line (f line : Str) (h : '\n' ∉ line) :
    extractLinks f line = extractLine f 1 line := by
  unfold extractLinks
  rw [splitLines_no_nl line h]
  simp [List.enum]

/-- The relative-link pass never contributes a wikilink-typed record. -/
theorem relPart_no_wiki (file : Str) (ln : Nat) (ms : List RelMatch) :
    (ms.filterMap (relToLink file ln)).filter
      (fun l => l.type == LinkType.wikilink) = [] := by
  rw [List.filter_eq_nil_iff]
  intro l hl
  rw [List.mem_filterMap] at hl
  obtain ⟨m, -, hsome⟩ := hl
  simp only [relToLink] at hsome
  split at hsome
  · cases hsome
  · split at hsome
    · cases hsome
    · obtain rfl := Option.some.inj hsome
      simp

/-- Extraction of a single-line text that is exactly one wiki match. -/
theorem extractLinks_of_exact (f s : Str) (g1 : Str) (al : Option Str)
    (hm : matchWikiAt s = some (s, g1, al)) (hne : s ≠ []) (hnl : '\n' ∉ s) :
    (extractLinks f s).filter (fun l => l.type == LinkType.wikilink) =
      [⟨f, 1, s, trimStr g1, .wikilink⟩] := by
  rw [extractLinks_single_line f s hnl]
  unfold extractLine
  rw [List.filter_append, scanWiki_exact s g1 al hm hne, relPart_no_wiki]
  simp [wikiToLink]

/-- Newline absence is preserved by consing a non-newline character onto an
append of newline-free blocks. -/
theorem nl_cons_app (c : Char) (x t : Str) (hc : ¬ c = '\n') (hx : '\n' ∉ x)
    (ht : '\n' ∉ t) : '\n' ∉ (c :: (x ++ t)) := by
  intro hm
  rcases List.mem_cons.mp hm with h | hm
  · exact hc h.symm
  · rcases List.mem_append.mp hm with hm | hm
    · exact hx hm
    · exact ht hm

/-- Newline absence for the full bracketed span. -/
theorem nl_form (a t : Str) (ha : '\n' ∉ a) (ht : '\n' ∉ t) :
    '\n' ∉ ('[' :: '[' :: (a ++ t)) := by
  intro hm
  rcases List.mem_cons.mp hm with h | hm
  · exact absurd h (by decide)
  rcases List.mem_cons.mp hm with h | hm
  · exact absurd h (by decide)
  rcases List.mem_append.mp hm with hm | hm
  · exact ha hm
  · exact ht hm

/-- C8: extraction of each of the four `Named`-reference forms `[[a]]`,
`[[a|b]]`, `[[a#h]]` and `[[a#h|b]]` yields the reference whose target is
`a` with heading fragment and alias stripped and whitespace trimmed.  The
hypotheses state well-formedness of the pieces: the name `a` is non-empty
and free of `]`, `|`, `#`; the heading `h` is free of `]`, `|`; the alias
`b` is free of `]`; and all are free of newlines. -/
theorem C8_target_forms (a h b f : Str)
    (hne : a ≠ []) (ha : ∀ c ∈ a, isG1 c = true) (hna : '\n' ∉ a)
    (hh : ∀ c ∈ h, isHeadChar c = true) (hnh : '\n' ∉ h)
    (hb : ∀ c ∈ b, isAliasChar c = true) (hnb : '\n' ∉ b) :
    (extractLinks f ('[' :: '[' :: (a ++ [']', ']']))).filter
        (fun l => l.type == LinkType.wikilink) =
      [⟨f, 1, '[' :: '[' :: (a ++ [']', ']']), trimStr a, .wikilink⟩] ∧
    (extractLinks f ('[' :: '[' :: (a ++ '|' :: (b ++ [']', ']'])))).filter
        (fun l => l.type == LinkType.wikilink) =
      [⟨f, 1, '[' :: '[' :: (a ++ '|' :: (b ++ [']', ']'])), trimStr a, .wikilink⟩] ∧
    (extractLinks f ('[' :: '[' :: (a ++ '#' :: (h ++ [']', ']'])))).filter
        (fun l => l.type == LinkType.wikilink) =
      [⟨f, 1, '[' :: '[' :: (a ++ '#' :: (h ++ [']', ']'])), trimStr a, .wikilink⟩] ∧
    (extractLinks f ('[' :: '[' :: (a ++ '#' :: (h ++ '|' :: (b ++ [']', ']']))))).filter
        (fun l => l.type == LinkType.wikilink) =
      [⟨f, 1, '[' :: '[' :: (a ++ '#' :: (h ++ '|' :: (b ++ [']', ']']))), trimStr a,
        .wikilink⟩] := by
  have hb2 : ('\n' : Char) ∉ ('|' :: (b ++ [']', ']'])) :=
    nl_cons_app '|' b [']', ']'] (by decide) hnb (by decide)
  refine ⟨?_, ?_, ?_, ?_⟩
  · exact extractLinks_of_exact f _ a none
      (matchWikiAt_eq a ']' [']'] [']', ']'] none ha hne (by decide)
        (matchHeadingTail_plain []))
      (by intro hc; cases hc)
      (nl_form a [']', ']'] hna (by decide))
  · exact extractLinks_of_exact f _ a (some b)
      (matchWikiAt_eq a '|' (b ++ [']', ']']) ('|' :: (b ++ [']', ']'])) (some b)
        ha hne (by decide) (matchHeadingTail_alias b [] hb))
      (by intro hc; cases hc)
      (nl_form a ('|' :: (b ++ [']', ']'])) hna hb2)
  · exact extractLinks_of_exact f _ a none
      (matchWikiAt_eq a '#' (h ++ [']', ']']) ('#' :: (h ++ [']', ']'])) none
        ha hne (by decide) (matchHeadingTail_heading h [] hh))
      (by intro hc; cases hc)
      (nl_form a ('#' :: (h ++ [']', ']'])) hna
        (nl_cons_app '#' h [']', ']'] (by decide) hnh (by decide)))
  · exact extractLinks_of_exact f _ a (some b)
      (matchWikiAt_eq a '#' (h ++ '|' :: (b ++ [']', ']']))
        ('#' :: (h ++ '|' :: (b ++ [']', ']']))) (some b)
        ha hne (by decide) (matchHeadingTail_heading_alias h b [] hh hb))
      (by intro hc; cases hc)
      (nl_form a ('#' :: (h ++ '|' :: (b ++ [']', ']']))) hna
        (nl_cons_app '#' h ('|' :: (b ++ [']', ']'])) (by decide) hnh hb2))

/-- Closed instance of `C8_target_forms` at `a = "note"`, `h = "Sec"`,
`b = "Disp"`. -/
theorem C8_witness :
    (extractLinks "f.md".toList
        ('[' :: '[' :: ("note".toList ++ [']', ']']))).filter
        (fun l => l.type == LinkType.wikilink) =
      [⟨"f.md".toList, 1, '[' :: '[' :: ("note".toList ++ [']', ']']),
        trimStr "note".toList, .wikilink⟩] :=
  (C8_target_forms "note".toList "Sec".toList "Disp".toList "f.md".toList
    (by decide) (by decide) (by decide) (by decide) (by decide) (by decide)
    (by decide)).1

/-! ## The lookbehind invariant (for C7) -/

/-- Dropping the length of the `takeWhile` run is `dropWhile`. -/
theorem drop_takeWhile_len (p : Char → Bool) (l : Str) :
    l.drop (l.takeWhile p).length = l.dropWhile p := by
  induction l with
  | nil => rfl
  | cons c rest ih =>
    by_cases h : p c <;>
      simp [List.takeWhile_cons, List.dropWhile_cons, h, ih]

/-- The last element of an append is the last element of a non-empty right
block. -/
theorem getLast_app_right (x y : Str) (c : Char) (h : y.getLast? = some c) :
    (x ++ y).getLast? = some c := by
  induction x with
  | nil => simpa using h
  | cons a xs ih =>
    rw [List.cons_append]
    cases hxy : xs ++ y with
    | nil =>
      rcases List.append_eq_nil.mp hxy with ⟨-, rfl⟩
      cases h
    | cons u v =>
      rw [List.getLast?_cons_cons]
      exact hxy ▸ ih

/-- A block closed by `]]` ends in `]`. -/
theorem getLast_close (u : Str) : (u ++ [']', ']']).getLast? = some ']' := by
  rw [show u ++ [']', ']'] = (u ++ [']']) ++ [']'] by simp]
  exact List.getLast?_concat _

/-- Shape of a successful `matchAlias`: the consumed block ends in `]]` and
is a prefix of the input. -/
theorem matchAlias_shape (s : Str) (c : Str) (al : Option Str)
    (hm : matchAlias s = some (c, al)) :
    (∃ u, c = u ++ [']', ']']) ∧ (∃ t, s = c ++ t) := by
  unfold matchAlias at hm
  dsimp only [] at hm
  split at hm
  next rest =>
    split at hm
    next tail heq2 =>
      obtain ⟨rfl, -⟩ := Prod.mk.inj (Option.some.inj hm)
      have hrest : rest = rest.takeWhile isAliasChar ++ (']' :: ']' :: tail) := by
        conv_lhs => rw [← List.takeWhile_append_dropWhile isAliasChar rest]
        rw [← drop_takeWhile_len isAliasChar rest, heq2]
      refine ⟨⟨'|' :: rest.takeWhile isAliasChar, rfl⟩, ⟨tail, ?_⟩⟩
      conv_lhs => rw [hrest]
      simp
    next => cases hm
  next tail =>
    obtain ⟨rfl, -⟩ := Prod.mk.inj (Option.some.inj hm)
    exact ⟨⟨[], rfl⟩, ⟨tail, rfl⟩⟩
  next => cases hm

/-- Shape of a successful `matchHeadingTail`: the consumed block ends in
`]]` and is a prefix of the input. -/
theorem matchHeadingTail_shape (s : Str) (c : Str) (al : Option Str)
    (hm : matchHeadingTail s = some (c, al)) :
    (∃ u, c = u ++ [']', ']']) ∧ (∃ t, s = c ++ t) := by
  unfold matchHeadingTail at hm
  dsimp only [] at hm
  split at hm
  next rest =>
    split at hm
    next c' al' heq2 =>
      obtain ⟨rfl, -⟩ := Prod.mk.inj (Option.some.inj hm)
      obtain ⟨⟨u, hu⟩, ⟨t, ht⟩⟩ := matchAlias_shape _ _ _ heq2
      have hrest : rest = rest.takeWhile isHeadChar ++ (c' ++ t) := by
        conv_lhs => rw [← List.takeWhile_append_dropWhile isHeadChar rest]
        rw [← drop_takeWhile_len isHeadChar rest, ht]
      refine ⟨⟨'#' :: rest.takeWhile isHeadChar ++ u, by rw [hu]; simp⟩, ⟨t, ?_⟩⟩
      conv_lhs => rw [hrest]
      simp
    next => exact matchAlias_shape _ _ _ hm
  next => exact matchAlias_shape _ _ _ hm

/-- Shape of a successful `matchWikiAt`: the raw match ends in `]]` and is
a prefix of the input. -/
theorem matchWikiAt_shape (s : Str) (raw g1 : Str) (al : Option Str)
    (hm : matchWikiAt s = some (raw, g1, al)) :
    (∃ u, raw = u ++ [']', ']']) ∧ (∃ t, s = raw ++ t) := by
  unfold matchWikiAt at hm
  dsimp only [] at hm
  split at hm
  next rest =>
    split at hm
    next => cases hm
    next =>
      split at hm
      next c' al' heq2 =>
        obtain ⟨rfl, -⟩ := Prod.mk.inj (Option.some.inj hm)
        obtain ⟨⟨u, hu⟩, ⟨t, ht⟩⟩ := matchHeadingTail_shape _ _ _ heq2
        have hrest : rest = rest.takeWhile isG1 ++ (c' ++ t) := by
          conv_lhs => rw [← List.takeWhile_append_dropWhile isG1 rest]
          rw [← drop_takeWhile_len isG1 rest, ht]
        refine ⟨⟨'[' :: '[' :: rest.takeWhile isG1 ++ u, by rw [hu]; simp⟩, ⟨t, ?_⟩⟩
        conv_lhs => rw [hrest]
        simp
      next => cases hm
  next => cases hm

/-- Every match produced by the wiki scan satisfies the `(?<!!)`
lookbehind: the character just before its start index is not `!`. -/
theorem scanWikiAux_lookbehind (fuel : Nat) :
    ∀ (prev : Option Char) (i : Nat) (s : Str) (m : WikiMatch),
      m ∈ scanWikiAux fuel prev i s →
      i ≤ m.start ∧ (m.start = i → prev ≠ some '!') ∧
        (i < m.start → s[m.start - i - 1]? ≠ some '!') := by
  induction fuel with
  | zero =>
    intro prev i s m hm
    cases s <;> cases hm
  | succ fuel ih =>
    intro prev i s m hm
    cases s with
    | nil => cases hm
    | cons c rest =>
      rw [scanWikiAux] at hm
      by_cases hprev : prev = some '!'
      · rw [if_pos hprev] at hm
        obtain ⟨h1, h2, h3⟩ := ih (some c) (i + 1) rest m hm
        refine ⟨by omega, by omega, ?_⟩
        intro hlt
        by_cases hstart : m.start = i + 1
        · have hc : ¬ c = '!' := fun hc => h2 hstart (by rw [hc])
          have : m.start - i - 1 = 0 := by omega
          rw [this]
          simpa using hc
        · have hgt : i + 1 < m.start := by omega
          have harith : m.start - i - 1 = (m.start - (i + 1) - 1) + 1 := by omega
          rw [harith, List.getElem?_cons_succ]
          exact h3 hgt
      · rw [if_neg hprev] at hm
        cases hmat : matchWikiAt (c :: rest) with
        | none =>
          rw [hmat] at hm
          obtain ⟨h1, h2, h3⟩ := ih (some c) (i + 1) rest m hm
          refine ⟨by omega, by omega, ?_⟩
          intro hlt
          by_cases hstart : m.start = i + 1
          · have hc : ¬ c = '!' := fun hc => h2 hstart (by rw [hc])
            have : m.start - i - 1 = 0 := by omega
            rw [this]
            simpa using hc
          · have hgt : i + 1 < m.start := by omega
            have harith : m.start - i - 1 = (m.start - (i + 1) - 1) + 1 := by omega
            rw [harith, List.getElem?_cons_succ]
            exact h3 hgt
        | some r =>
          obtain ⟨raw, g1, al⟩ := r
          rw [hmat] at hm
          obtain ⟨⟨u, hu⟩, ⟨t, ht⟩⟩ := matchWikiAt_shape _ _ _ _ hmat
          have hlast : raw.getLast? = some ']' := hu ▸ getLast_close u
          have hrawlen : 1 ≤ raw.length := by
            rcases raw with - | -
            · cases hlast
            · simp
          rcases List.mem_cons.mp hm with rfl | hm
          · exact ⟨Nat.le_refl i, fun _ => hprev, fun hlt => absurd hlt (by simp)⟩
          · obtain ⟨h1, h2, h3⟩ := ih raw.getLast? (i + raw.length)
              ((c :: rest).drop raw.length) m hm
            refine ⟨by omega, by omega, ?_⟩
            intro hlt
            by_cases hstart : m.start = i + raw.length
            · have harith : m.start - i - 1 = raw.length - 1 := by omega
              rw [harith, ht, List.getElem?_append_left (by omega),
                ← List.getLast?_eq_getElem? raw, hlast]
              decide
            · have hgt : i + raw.length < m.start := by omega
              have harith : m.start - i - 1 =
                  raw.length + (m.start - (i + raw.length) - 1) := by omega
              rw [harith, ← List.getElem?_drop]
              exact h3 (by omega)

/-- The raw text of a rel-regex match ends in `)`. -/
theorem matchRelAt_raw_last (s : Str) (raw lbl href : Str)
    (hm : matchRelAt s = some (raw, lbl, href)) : raw.getLast? = some ')' := by
  unfold matchRelAt at hm
  dsimp only [] at hm
  split at hm
  next rest =>
    split at hm
    next rest2 =>
      split at hm
      next => cases hm
      next =>
        split at hm
        next =>
          obtain ⟨rfl, -⟩ := Prod.mk.inj (Option.some.inj hm)
          exact getLast_app_right _ _ _ rfl
        next => cases hm
    next => cases hm
  next => cases hm

/-- The raw text of every scanned rel match ends in `)`. -/
theorem scanRelAux_raw_last (fuel : Nat) :
    ∀ (i : Nat) (s : Str) (m : RelMatch),
      m ∈ scanRelAux fuel i s → m.raw.getLast? = some ')' := by
  induction fuel with
  | zero => intro i s m hm; cases s <;> cases hm
  | succ fuel ih =>
    intro i s m hm
    cases s with
    | nil => cases hm
    | cons c rest =>
      rw [scanRelAux] at hm
      cases hmat : matchRelAt (c :: rest) with
      | none =>
        rw [hmat] at hm
        exact ih _ _ m hm
      | some r =>
        obtain ⟨raw, lbl, href⟩ := r
        rw [hmat] at hm
        rcases List.mem_cons.mp hm with rfl | hm
        · exact matchRelAt_raw_last _ _ _ _ hmat
        · exact ih _ _ m hm

/-- The raw text of every rel match of a line ends in `)`. -/
theorem scanRel_raw_last (line : Str) (m : RelMatch) (hm : m ∈ scanRel line) :
    m.raw.getLast? = some ')' :=
  scanRelAux_raw_last _ _ _ m hm

/-- C7: an embed span `![[x]]` produces no reference: no wikilink match can
start at the embed's bracket position (the lookbehind sees the `!`), and no
relative-link match can occupy the bracket span (its raw match ends in `)`,
not `]`).  The surrounding content `pre`/`post` and the interior `x` are
arbitrary. -/
theorem C7_embed_exclusion (pre x post : Str) :
    (∀ m ∈ scanWiki (pre ++ '!' :: '[' :: '[' :: (x ++ ']' :: ']' :: post)),
        m.start ≠ pre.length + 1) ∧
    (∀ m ∈ scanRel (pre ++ '!' :: '[' :: '[' :: (x ++ ']' :: ']' :: post)),
        m.raw ≠ '[' :: '[' :: (x ++ [']', ']'])) := by
  constructor
  · intro m hm hstart
    obtain ⟨-, -, h3⟩ := scanWikiAux_lookbehind _ none 0 _ m hm
    have hbang :
        (pre ++ '!' :: '[' :: '[' :: (x ++ ']' :: ']' :: post))[pre.length]? =
          some '!' := by
      rw [List.getElem?_append_right (Nat.le_refl pre.length)]
      simp
    have hne := h3 (by omega)
    rw [hstart] at hne
    have harith : pre.length + 1 - 0 - 1 = pre.length := by omega
    rw [harith] at hne
    exact hne hbang
  · intro m hm heq
    have hlast : m.raw.getLast? = some ')' := scanRel_raw_last _ m hm
    rw [heq] at hlast
    have : ('[' :: '[' :: (x ++ [']', ']'])).getLast? = some ']' := by
      rw [show '[' :: '[' :: (x ++ [']', ']']) =
          ('[' :: '[' :: x) ++ [']', ']'] by simp]
      exact getLast_close _
    rw [this] at hlast
    cases hlast

/-- Closed instance of `C7_embed_exclusion`: in `a ![[im]] [[b]]` the
extracted wikilink starts at index 10, not at the embed's bracket position
3; in `![[im]] [l](u)` the extracted relative link's raw text is not the
embed's bracket span. -/
theorem C7_witness :
    (⟨10, "[[b]]".toList, "b".toList, none⟩ : WikiMatch).start ≠
      "a ".toList.length + 1 ∧
    (⟨8, "[l](u)".toList, "l".toList, "u".toList⟩ : RelMatch).raw ≠
      '[' :: '[' :: ("im".toList ++ [']', ']']) :=
  ⟨(C7_embed_exclusion "a ".toList "im".toList " [[b]]".toList).1
      ⟨10, "[[b]]".toList, "b".toList, none⟩ (by decide),
    (C7_embed_exclusion "".toList "im".toList " [l](u)".toList).2
      ⟨8, "[l](u)".toList, "l".toList, "u".toList⟩ (by decide)⟩

end MdKit
